import Mathlib

/-!
Verification of the speaker-attributed transcription pipeline.

The repository ships the surrounding application (frontend pages, deployment
notes, SQL migrations); the core capture/transcription/diarization pipeline
itself is described by the design documents, so its components are modelled
here from that description.  The transcript download feature of the frontend
page is embedded directly from its TypeScript source.

Times are modelled as integer second counts; machine floating point is not
load-bearing for any property proved here (every example in the design
document is integral, and the properties proved are order-algebraic ones
that do not depend on sub-second resolution).
-/

/-- Modelled from the spec: the core pipeline code (StreamingTranscriber) is
not in the repository; a transcription segment is a triple of start time,
end time and text, as in section 3 of the design document. -/
structure TranscriptionSegment where
  start_seconds : ℤ
  end_seconds : ℤ
  text : String
deriving DecidableEq

/-- Modelled from the spec: the OfflineSegmenter code is not in the
repository; a diarization interval carries a start, an end and an opaque
speaker label. -/
structure DiarizationInterval where
  start_seconds : ℤ
  end_seconds : ℤ
  speaker_label : String
deriving DecidableEq

/-- Modelled from the spec: the SegmentReconciler output record, one per
transcription segment, carrying the assigned speaker label. -/
structure ReconciledSegment where
  start_seconds : ℤ
  end_seconds : ℤ
  text : String
  speaker_label : String
deriving DecidableEq

/-- Modelled from the spec: the overlap duration of a transcription segment
and a diarization interval, min(s.end, d.end) - max(s.start, d.start). -/
def overlap (s : TranscriptionSegment) (d : DiarizationInterval) : ℤ :=
  min s.end_seconds d.end_seconds - max s.start_seconds d.start_seconds

/-- Modelled from the spec: an interval is a candidate for a segment when
its range intersects the segment, i.e. the overlap duration is positive. -/
def IsCand (s : TranscriptionSegment) (d : DiarizationInterval) : Prop :=
  0 < overlap s d

instance (s : TranscriptionSegment) (d : DiarizationInterval) :
    Decidable (IsCand s d) := by
  unfold IsCand; infer_instance

/-- Modelled from the spec: the reconciler preference order.  A candidate
interval is strictly better than the current one when it has larger overlap,
or equal overlap and an earlier start, or equal overlap, equal start and an
earlier end. -/
def Better (s : TranscriptionSegment) (cur cand : DiarizationInterval) : Prop :=
  overlap s cur < overlap s cand ∨
    (overlap s cand = overlap s cur ∧
      (cand.start_seconds < cur.start_seconds ∨
        (cand.start_seconds = cur.start_seconds ∧
          cand.end_seconds < cur.end_seconds)))

instance (s : TranscriptionSegment) (cur cand : DiarizationInterval) :
    Decidable (Better s cur cand) := by
  unfold Better; infer_instance

/-- Modelled from the spec: one fold step of the reconciler scan, keeping
the best intersecting interval seen so far. -/
def pickStep (s : TranscriptionSegment) (acc : Option DiarizationInterval)
    (d : DiarizationInterval) : Option DiarizationInterval :=
  if IsCand s d then
    match acc with
    | none => some d
    | some cur => if Better s cur d then some d else some cur
  else acc

/-- Modelled from the spec: the interval assigned to a segment, the
intersecting interval with maximum overlap, ties broken by earliest start
then earliest end; none when no interval intersects. -/
def pickBest (s : TranscriptionSegment) (ds : List DiarizationInterval) :
    Option DiarizationInterval :=
  ds.foldl (pickStep s) none

/-- Modelled from the spec: the speaker label assigned to a segment, with
the sentinel label UNKNOWN when no interval intersects it. -/
def assignSpeaker (s : TranscriptionSegment) (ds : List DiarizationInterval) :
    String :=
  match pickBest s ds with
  | none => "UNKNOWN"
  | some d => d.speaker_label

/-- Modelled from the spec: the SegmentReconciler, mapping each input
transcription segment to a reconciled segment with the same start, end and
text and the assigned speaker label. -/
def reconcile (segs : List TranscriptionSegment)
    (ds : List DiarizationInterval) : List ReconciledSegment :=
  segs.map fun s =>
    { start_seconds := s.start_seconds
      end_seconds := s.end_seconds
      text := s.text
      speaker_label := assignSpeaker s ds }

/-! Order lemmas for the reconciler preference relation, via a lexicographic
key on integer triples. -/

/-- Strict lexicographic order on integer triples. -/
def keyLt (a b : ℤ × ℤ × ℤ) : Prop :=
  a.1 < b.1 ∨ (a.1 = b.1 ∧ (a.2.1 < b.2.1 ∨ (a.2.1 = b.2.1 ∧ a.2.2 < b.2.2)))

/-- The ranking key of an interval for a given segment: larger overlap is a
smaller key, then earlier start, then earlier end. -/
def key (s : TranscriptionSegment) (d : DiarizationInterval) : ℤ × ℤ × ℤ :=
  (-(overlap s d), d.start_seconds, d.end_seconds)

theorem keyLt_irrefl (a : ℤ × ℤ × ℤ) : ¬ keyLt a a := by
  unfold keyLt
  push_neg
  exact ⟨le_refl _, fun _ => ⟨le_refl _, fun _ => le_refl _⟩⟩

theorem keyLt_trans {a b c : ℤ × ℤ × ℤ}
    (hab : keyLt a b) (hbc : keyLt b c) : keyLt a c := by
  unfold keyLt at *
  rcases hab with h1 | ⟨e1, h1⟩ <;> rcases hbc with h2 | ⟨e2, h2⟩
  · exact Or.inl (lt_trans h1 h2)
  · exact Or.inl (e2 ▸ h1)
  · exact Or.inl (e1 ▸ h2)
  · refine Or.inr ⟨e1.trans e2, ?_⟩
    rcases h1 with h1 | ⟨f1, h1⟩ <;> rcases h2 with h2 | ⟨f2, h2⟩
    · exact Or.inl (lt_trans h1 h2)
    · exact Or.inl (f2 ▸ h1)
    · exact Or.inl (f1 ▸ h2)
    · exact Or.inr ⟨f1.trans f2, lt_trans h1 h2⟩

theorem keyLt_trichotomy (a b : ℤ × ℤ × ℤ) :
    keyLt a b ∨ a = b ∨ keyLt b a := by
  unfold keyLt
  rcases lt_trichotomy a.1 b.1 with h1 | h1 | h1
  · exact Or.inl (Or.inl h1)
  · rcases lt_trichotomy a.2.1 b.2.1 with h2 | h2 | h2
    · exact Or.inl (Or.inr ⟨h1, Or.inl h2⟩)
    · rcases lt_trichotomy a.2.2 b.2.2 with h3 | h3 | h3
      · exact Or.inl (Or.inr ⟨h1, Or.inr ⟨h2, h3⟩⟩)
      · refine Or.inr (Or.inl ?_)
        have h4 : a.2 = b.2 := Prod.ext h2 h3
        exact Prod.ext h1 h4
      · exact Or.inr (Or.inr (Or.inr ⟨h1.symm, Or.inr ⟨h2.symm, h3⟩⟩))
    · exact Or.inr (Or.inr (Or.inr ⟨h1.symm, Or.inl h2⟩))
  · exact Or.inr (Or.inr (Or.inl h1))

theorem Better_iff_keyLt (s : TranscriptionSegment)
    (cur cand : DiarizationInterval) :
    Better s cur cand ↔ keyLt (key s cand) (key s cur) := by
  unfold Better keyLt key
  constructor
  · rintro (h | ⟨h, hrest⟩)
    · exact Or.inl (by simpa using h)
    · exact Or.inr ⟨by simpa using h, hrest⟩
  · rintro (h | ⟨h, hrest⟩)
    · exact Or.inl (by simpa using h)
    · exact Or.inr ⟨by simpa using h, hrest⟩

theorem better_irrefl (s : TranscriptionSegment) (d : DiarizationInterval) :
    ¬ Better s d d := by
  rw [Better_iff_keyLt]
  exact keyLt_irrefl _

theorem notBetter_trans (s : TranscriptionSegment)
    (a b c : DiarizationInterval)
    (hab : ¬ Better s a b) (hbc : ¬ Better s b c) : ¬ Better s a c := by
  rw [Better_iff_keyLt] at *
  intro hca
  rcases keyLt_trichotomy (key s b) (key s a) with h | h | h
  · exact hab h
  · exact hbc (h ▸ hca)
  · exact hbc (keyLt_trans hca h)

theorem better_notBetter_trans (s : TranscriptionSegment)
    (cur d x : DiarizationInterval)
    (hcd : Better s cur d) (hcx : ¬ Better s cur x) : ¬ Better s d x := by
  rw [Better_iff_keyLt] at *
  intro hxd
  exact hcx (keyLt_trans hxd hcd)

theorem notBetter_better_trans (s : TranscriptionSegment)
    (r d cur : DiarizationInterval)
    (hrd : ¬ Better s r d) (hcd : Better s cur d) : ¬ Better s r cur := by
  rw [Better_iff_keyLt] at *
  intro hcr
  exact hrd (keyLt_trans hcd hcr)

/-! The fold invariant of the reconciler scan. -/

theorem pickStep_not_cand {s : TranscriptionSegment}
    {d : DiarizationInterval} (acc : Option DiarizationInterval)
    (h : ¬ IsCand s d) : pickStep s acc d = acc := by
  simp [pickStep, h]

theorem pickStep_none {s : TranscriptionSegment} {d : DiarizationInterval}
    (h : IsCand s d) : pickStep s none d = some d := by
  simp [pickStep, h]

theorem pickStep_replace {s : TranscriptionSegment}
    {cur d : DiarizationInterval} (h : IsCand s d) (hb : Better s cur d) :
    pickStep s (some cur) d = some d := by
  simp [pickStep, h, hb]

theorem pickStep_keep {s : TranscriptionSegment}
    {cur d : DiarizationInterval} (h : IsCand s d) (hb : ¬ Better s cur d) :
    pickStep s (some cur) d = some cur := by
  simp [pickStep, h, hb]

theorem pickGo_none (s : TranscriptionSegment) :
    ∀ (ds : List DiarizationInterval) (acc : Option DiarizationInterval),
      ds.foldl (pickStep s) acc = none →
        acc = none ∧ ∀ d ∈ ds, ¬ IsCand s d := by
  intro ds
  induction ds with
  | nil => intro acc h; simpa using h
  | cons d rest ih =>
    intro acc h
    simp only [List.foldl_cons] at h
    obtain ⟨hstep, hrest⟩ := ih (pickStep s acc d) h
    by_cases hc : IsCand s d
    · exfalso
      cases acc with
      | none => rw [pickStep_none hc] at hstep; exact Option.noConfusion hstep
      | some cur =>
        by_cases hb : Better s cur d
        · rw [pickStep_replace hc hb] at hstep; exact Option.noConfusion hstep
        · rw [pickStep_keep hc hb] at hstep; exact Option.noConfusion hstep
    · rw [pickStep_not_cand acc hc] at hstep
      subst hstep
      refine ⟨rfl, fun e he => ?_⟩
      rcases List.mem_cons.mp he with he | he
      · exact he ▸ hc
      · exact hrest e he

theorem pickGo_some (s : TranscriptionSegment) :
    ∀ (ds : List DiarizationInterval) (acc : Option DiarizationInterval)
      (r : DiarizationInterval),
      (∀ c, acc = some c → IsCand s c) →
      ds.foldl (pickStep s) acc = some r →
        IsCand s r ∧ (acc = some r ∨ r ∈ ds) ∧
          (∀ d ∈ ds, IsCand s d → ¬ Better s r d) ∧
          (∀ c, acc = some c → ¬ Better s r c) := by
  intro ds
  induction ds with
  | nil =>
    intro acc r hacc h
    simp only [List.foldl_nil] at h
    subst h
    refine ⟨hacc r rfl, Or.inl rfl, by simp, fun c hc => ?_⟩
    rw [Option.some_inj] at hc
    exact hc ▸ better_irrefl s r
  | cons d rest ih =>
    intro acc r hacc h
    simp only [List.foldl_cons] at h
    have hstep_cand : ∀ c, pickStep s acc d = some c → IsCand s c := by
      intro c hc
      by_cases hcd : IsCand s d
      · cases acc with
        | none =>
          rw [pickStep_none hcd, Option.some_inj] at hc; exact hc ▸ hcd
        | some cur =>
          by_cases hb : Better s cur d
          · rw [pickStep_replace hcd hb, Option.some_inj] at hc
            exact hc ▸ hcd
          · rw [pickStep_keep hcd hb, Option.some_inj] at hc
            exact hc ▸ hacc cur rfl
      · rw [pickStep_not_cand acc hcd] at hc; exact hacc c hc
    obtain ⟨hr, hmem, hdom, hinit⟩ := ih (pickStep s acc d) r hstep_cand h
    have hrd : IsCand s d → ¬ Better s r d := by
      intro hcd
      cases acc with
      | none => exact hinit d (pickStep_none hcd)
      | some cur =>
        by_cases hb : Better s cur d
        · exact hinit d (pickStep_replace hcd hb)
        · exact notBetter_trans s r cur d (hinit cur (pickStep_keep hcd hb)) hb
    refine ⟨hr, ?_, ?_, ?_⟩
    · rcases hmem with hm | hm
      · by_cases hcd : IsCand s d
        · cases acc with
          | none =>
            rw [pickStep_none hcd, Option.some_inj] at hm
            exact Or.inr (hm ▸ List.mem_cons_self d rest)
          | some cur =>
            by_cases hb : Better s cur d
            · rw [pickStep_replace hcd hb, Option.some_inj] at hm
              exact Or.inr (hm ▸ List.mem_cons_self d rest)
            · rw [pickStep_keep hcd hb] at hm; exact Or.inl hm
        · rw [pickStep_not_cand acc hcd] at hm; exact Or.inl hm
      · exact Or.inr (List.mem_cons_of_mem d hm)
    · intro e he hce
      rcases List.mem_cons.mp he with he | he
      · exact he ▸ hrd (he ▸ hce)
      · exact hdom e he hce
    · intro c hc
      by_cases hcd : IsCand s d
      · cases acc with
        | none => exact Option.noConfusion hc
        | some cur =>
          rw [Option.some_inj] at hc
          subst hc
          by_cases hb : Better s cur d
          · exact notBetter_better_trans s r d cur
              (hinit d (pickStep_replace hcd hb)) hb
          · exact hinit cur (pickStep_keep hcd hb)
      · rw [← pickStep_not_cand acc hcd] at hc; exact hinit c hc

/-- The specification of pickBest on the some case: the chosen interval is a
member, intersects the segment, and no intersecting interval is strictly
better than it. -/
theorem pickBest_spec (s : TranscriptionSegment)
    (ds : List DiarizationInterval) (r : DiarizationInterval)
    (h : pickBest s ds = some r) :
    IsCand s r ∧ r ∈ ds ∧ ∀ d ∈ ds, IsCand s d → ¬ Better s r d := by
  obtain ⟨hr, hmem, hdom, _⟩ :=
    pickGo_some s ds none r (fun c hc => Option.noConfusion hc) h
  refine ⟨hr, ?_, hdom⟩
  rcases hmem with hm | hm
  · exact Option.noConfusion hm
  · exact hm

/-- The specification of pickBest on the none case: no interval intersects
the segment. -/
theorem pickBest_none (s : TranscriptionSegment)
    (ds : List DiarizationInterval) (h : pickBest s ds = none) :
    ∀ d ∈ ds, ¬ IsCand s d :=
  (pickGo_none s ds none h).2

/-! Concrete data from the testable-properties section of the design
document. -/

/-- The transcription segment spanning seconds 0 to 10 used in the
overlap-maximizing and tie-break examples. -/
def segZeroTen : TranscriptionSegment := ⟨0, 10, ""⟩

/-- Interval 0 to 4 labelled S0. -/
def intS0four : DiarizationInterval := ⟨0, 4, "S0"⟩

/-- Interval 4 to 10 labelled S1. -/
def intS1ten : DiarizationInterval := ⟨4, 10, "S1"⟩

/-- Interval 0 to 5 labelled S0. -/
def intS0five : DiarizationInterval := ⟨0, 5, "S0"⟩

/-- Interval 5 to 10 labelled S1. -/
def intS1five : DiarizationInterval := ⟨5, 10, "S1"⟩

/-- Interval 20 to 30 labelled S0, disjoint from segZeroTen. -/
def intTwentyThirty : DiarizationInterval := ⟨20, 30, "S0"⟩

/-- C1: the reconciler assigns to each transcription segment the speaker
label of an intersecting diarization interval of maximal overlap duration
among all intervals intersecting the segment, and such an assignment exists
whenever any interval intersects; in particular for segment (0,10) and
intervals (0,4,S0), (4,10,S1) the assigned speaker is S1. -/
theorem c1_overlap_maximizing_assignment :
    (∀ (s : TranscriptionSegment) (ds : List DiarizationInterval)
       (d : DiarizationInterval), pickBest s ds = some d →
         d ∈ ds ∧ IsCand s d ∧ assignSpeaker s ds = d.speaker_label ∧
           ∀ e ∈ ds, IsCand s e → overlap s e ≤ overlap s d) ∧
    (∀ (s : TranscriptionSegment) (ds : List DiarizationInterval)
       (e : DiarizationInterval), e ∈ ds → IsCand s e →
         ∃ d, pickBest s ds = some d) ∧
    assignSpeaker segZeroTen [intS0four, intS1ten] = "S1" := by
  refine ⟨?_, ?_, by decide⟩
  · intro s ds d h
    obtain ⟨hc, hmem, hdom⟩ := pickBest_spec s ds d h
    refine ⟨hmem, hc, by simp [assignSpeaker, h], ?_⟩
    intro e he hce
    have hnb := hdom e he hce
    unfold Better at hnb
    push_neg at hnb
    exact hnb.1
  · intro s ds e he hce
    cases hp : pickBest s ds with
    | none => exact absurd hce (pickBest_none s ds hp e he)
    | some d => exact ⟨d, rfl⟩

/-- Witness for C1: the design-document example, evaluated concretely.  The
interval (4,10,S1) is the maximal-overlap choice for segment (0,10). -/
theorem c1_overlap_maximizing_assignment_witness :
    pickBest segZeroTen [intS0four, intS1ten] = some intS1ten ∧
      (intS1ten ∈ [intS0four, intS1ten] ∧ IsCand segZeroTen intS1ten ∧
        assignSpeaker segZeroTen [intS0four, intS1ten] =
          intS1ten.speaker_label ∧
        ∀ e ∈ [intS0four, intS1ten], IsCand segZeroTen e →
          overlap segZeroTen e ≤ overlap segZeroTen intS1ten) :=
  ⟨by decide, c1_overlap_maximizing_assignment.1 segZeroTen
    [intS0four, intS1ten] intS1ten (by decide)⟩

/-- C2: among intervals of equal maximal overlap the reconciler picks the
one with the earliest start, and at equal starts the earliest end; in
particular for segment (0,10) and intervals (0,5,S0), (5,10,S1) with equal
five-second overlap the assigned speaker is S0. -/
theorem c2_tie_break_determinism :
    (∀ (s : TranscriptionSegment) (ds : List DiarizationInterval)
       (d : DiarizationInterval), pickBest s ds = some d →
         ∀ e ∈ ds, IsCand s e → overlap s e = overlap s d →
           d.start_seconds ≤ e.start_seconds ∧
             (e.start_seconds = d.start_seconds →
               d.end_seconds ≤ e.end_seconds)) ∧
    assignSpeaker segZeroTen [intS0five, intS1five] = "S0" := by
  refine ⟨?_, by decide⟩
  intro s ds d h e he hce heq
  have hnb := (pickBest_spec s ds d h).2.2 e he hce
  unfold Better at hnb
  push_neg at hnb
  have h2 := hnb.2 heq
  exact ⟨h2.1, h2.2⟩

/-- Witness for C2: the design-document tie-break example, evaluated
concretely.  Both intervals overlap segment (0,10) by five seconds and the
earliest-start interval (0,5,S0) is chosen. -/
theorem c2_tie_break_determinism_witness :
    (pickBest segZeroTen [intS0five, intS1five] = some intS0five ∧
      intS1five ∈ [intS0five, intS1five] ∧ IsCand segZeroTen intS1five ∧
      overlap segZeroTen intS1five = overlap segZeroTen intS0five) ∧
    (intS0five.start_seconds ≤ intS1five.start_seconds ∧
      (intS1five.start_seconds = intS0five.start_seconds →
        intS0five.end_seconds ≤ intS1five.end_seconds)) :=
  ⟨⟨by decide, by decide, by decide, by decide⟩,
    c2_tie_break_determinism.1 segZeroTen [intS0five, intS1five] intS0five
      (by decide) intS1five (by decide) (by decide) (by decide)⟩

/-- C3: reconciliation is a pure label assignment; the output list has one
segment per input segment, in order, with start, end and text unchanged at
every position. -/
theorem c3_text_preservation :
    ∀ (segs : List TranscriptionSegment) (ds : List DiarizationInterval),
      (reconcile segs ds).length = segs.length ∧
      (reconcile segs ds).map
          (fun r => (r.start_seconds, r.end_seconds, r.text)) =
        segs.map (fun s => (s.start_seconds, s.end_seconds, s.text)) ∧
      ∀ i : ℕ,
        ((reconcile segs ds).get? i).map
            (fun r => (r.start_seconds, r.end_seconds, r.text)) =
          (segs.get? i).map
            (fun s => (s.start_seconds, s.end_seconds, s.text)) := by
  intro segs ds
  refine ⟨by simp [reconcile], ?_, ?_⟩
  · simp [reconcile, List.map_map]
  · intro i
    simp only [reconcile, List.get?_eq_getElem?, List.getElem?_map]
    cases segs[i]? <;> rfl

/-- C8: a segment intersecting no diarization interval receives the
sentinel speaker label UNKNOWN, and the reconciler still emits one output
segment per input segment rather than failing. -/
theorem c8_unknown_sentinel :
    (∀ (s : TranscriptionSegment) (ds : List DiarizationInterval),
       (∀ d ∈ ds, ¬ IsCand s d) → assignSpeaker s ds = "UNKNOWN") ∧
    (∀ (segs : List TranscriptionSegment) (ds : List DiarizationInterval),
       (reconcile segs ds).length = segs.length) := by
  constructor
  · intro s ds h
    cases hp : pickBest s ds with
    | none => simp [assignSpeaker, hp]
    | some r =>
      exact absurd (pickBest_spec s ds r hp).1
        (h r (pickBest_spec s ds r hp).2.1)
  · intro segs ds
    simp [reconcile]

/-- Witness for C8: segment (0,10) against the single disjoint interval
(20,30,S0) is assigned the sentinel label UNKNOWN. -/
theorem c8_unknown_sentinel_witness :
    (∀ d ∈ [intTwentyThirty], ¬ IsCand segZeroTen d) ∧
      assignSpeaker segZeroTen [intTwentyThirty] = "UNKNOWN" :=
  ⟨by decide, c8_unknown_sentinel.1 segZeroTen [intTwentyThirty] (by decide)⟩

/-! The streaming transcriber, modelled from section 4.2 of the design
document and the append-mode immediate-write loop described in
DATA_FLOW_EXPLAINED.md. -/

/-- Modelled from the spec: one accumulated window of audio processed by
the StreamingTranscriber as a unit: its actual duration in seconds and its
buffered samples. -/
structure AudioWindow where
  duration : ℤ
  samples : List ℤ
deriving DecidableEq

/-- Modelled from the spec: the text appended for one window.  The external
speech-to-text call either fails (none) or returns text; a failed call is
replaced by the empty string rather than skipping the segment. -/
def windowText (stt : AudioWindow → Option String) (w : AudioWindow) :
    String :=
  match stt w with
  | none => ""
  | some t => t

/-- Modelled from the spec: the transcription segments appended for a list
of consecutive windows whose first segment starts at the given time: each
window yields exactly one segment from the running end time to that plus
the window's actual duration. -/
def appendSegments (stt : AudioWindow → Option String) (t0 : ℤ) :
    List AudioWindow → List TranscriptionSegment
  | [] => []
  | w :: rest =>
      ⟨t0, t0 + w.duration, windowText stt w⟩ ::
        appendSegments stt (t0 + w.duration) rest

theorem appendSegments_length (stt : AudioWindow → Option String) :
    ∀ (ws : List AudioWindow) (t0 : ℤ),
      (appendSegments stt t0 ws).length = ws.length := by
  intro ws
  induction ws with
  | nil => intro t0; rfl
  | cons w rest ih =>
    intro t0
    simp [appendSegments, ih]

theorem appendSegments_head_start (stt : AudioWindow → Option String) :
    ∀ (ws : List AudioWindow) (t0 : ℤ) (r : TranscriptionSegment),
      (appendSegments stt t0 ws).head? = some r → r.start_seconds = t0 := by
  intro ws t0 r h
  cases ws with
  | nil => exact Option.noConfusion h
  | cons w rest =>
    simp only [appendSegments, List.head?_cons, Option.some_inj] at h
    rw [← h]

theorem appendSegments_chain (stt : AudioWindow → Option String) :
    ∀ (ws : List AudioWindow) (t0 : ℤ),
      List.Chain' (fun a b => a.end_seconds = b.start_seconds)
        (appendSegments stt t0 ws) := by
  intro ws
  induction ws with
  | nil => intro t0; exact List.chain'_nil
  | cons w rest ih =>
    intro t0
    rw [appendSegments, List.chain'_cons']
    refine ⟨?_, ih (t0 + w.duration)⟩
    intro b hb
    exact (appendSegments_head_start stt rest (t0 + w.duration) b hb).symm

theorem appendSegments_text (stt : AudioWindow → Option String) :
    ∀ (ws : List AudioWindow) (t0 : ℤ) (i : ℕ),
      ((appendSegments stt t0 ws).get? i).map (fun r => r.text) =
        (ws.get? i).map (windowText stt) := by
  intro ws
  induction ws with
  | nil => intro t0 i; rfl
  | cons w rest ih =>
    intro t0 i
    cases i with
    | zero => rfl
    | succ j =>
      simp only [appendSegments, List.get?_cons_succ]
      exact ih (t0 + w.duration) j

theorem appendSegments_append (stt : AudioWindow → Option String) :
    ∀ (xs ys : List AudioWindow) (t0 : ℤ),
      appendSegments stt t0 (xs ++ ys) =
        appendSegments stt t0 xs ++
          appendSegments stt (t0 + (xs.map AudioWindow.duration).sum) ys := by
  intro xs
  induction xs with
  | nil => intro ys t0; simp [appendSegments]
  | cons x rest ih =>
    intro ys t0
    simp only [List.cons_append, appendSegments, List.map_cons, List.sum_cons,
      List.append_eq]
    rw [ih ys (t0 + x.duration)]
    simp [add_assoc]

/-- C7: for every window the transcriber appends exactly one segment, the
appended segments are temporally contiguous, the text at window i is the
replaced model output for window i, and a failed or empty model call yields
the empty string rather than a skipped segment. -/
theorem c7_failed_window_still_appended :
    (∀ (stt : AudioWindow → Option String) (t0 : ℤ) (ws : List AudioWindow),
       (appendSegments stt t0 ws).length = ws.length) ∧
    (∀ (stt : AudioWindow → Option String) (t0 : ℤ) (ws : List AudioWindow),
       List.Chain' (fun a b => a.end_seconds = b.start_seconds)
         (appendSegments stt t0 ws)) ∧
    (∀ (stt : AudioWindow → Option String) (t0 : ℤ) (ws : List AudioWindow)
       (i : ℕ),
       ((appendSegments stt t0 ws).get? i).map (fun r => r.text) =
         (ws.get? i).map (windowText stt)) ∧
    (∀ (stt : AudioWindow → Option String) (w : AudioWindow),
       stt w = none ∨ stt w = some "" → windowText stt w = "") := by
  refine ⟨fun stt t0 ws => appendSegments_length stt ws t0,
    fun stt t0 ws => appendSegments_chain stt ws t0,
    fun stt t0 ws i => appendSegments_text stt ws t0 i, ?_⟩
  intro stt w h
  rcases h with h | h <;> simp [windowText, h]

/-- A speech-to-text stub that always fails, for the C7 witness. -/
def sttAlwaysFails : AudioWindow → Option String := fun _ => none

/-- A five-second window with no samples, for the C7 witness. -/
def wFive : AudioWindow := ⟨5, []⟩

/-- Witness for C7: a failing model call on a concrete window still yields
an appended segment with empty text. -/
theorem c7_failed_window_still_appended_witness :
    (sttAlwaysFails wFive = none ∨ sttAlwaysFails wFive = some "") ∧
      windowText sttAlwaysFails wFive = "" :=
  ⟨Or.inl rfl,
    c7_failed_window_still_appended.2.2.2 sttAlwaysFails wFive (Or.inl rfl)⟩

/-- Modelled from the spec: the state of the StreamingTranscriber between
windows: the end time of the last durably appended segment, the windows not
yet processed, and the transcript log already flushed to stable storage. -/
structure TranscriberState where
  clock : ℤ
  pending : List AudioWindow
  log : List TranscriptionSegment
deriving DecidableEq

/-- Modelled from the spec: completing one window.  The head pending window
is transcribed and its whole segment is appended to the transcript log via
the scoped synchronous append-with-flush of section 4.2, before the next
window begins accumulating; the append of a completed segment is a single
durable unit, so no partial segment ever reaches the log. -/
def tStep (stt : AudioWindow → Option String) (st : TranscriberState) :
    TranscriberState :=
  match st.pending with
  | [] => st
  | w :: rest =>
      ⟨st.clock + w.duration, rest,
        st.log ++ [⟨st.clock, st.clock + w.duration, windowText stt w⟩]⟩

/-- Modelled from the spec: the transcriber state after completing k
windows. -/
def tRun (stt : AudioWindow → Option String) (st : TranscriberState) :
    ℕ → TranscriberState
  | 0 => st
  | k + 1 => tRun stt (tStep stt st) k

/-- Modelled from the spec: the initial transcriber state of a session with
the given windows to process: clock at zero and an empty transcript log. -/
def initTranscriber (ws : List AudioWindow) : TranscriberState := ⟨0, ws, []⟩

theorem tRun_spec (stt : AudioWindow → Option String) :
    ∀ (k : ℕ) (st : TranscriberState),
      (tRun stt st k).log =
          st.log ++ appendSegments stt st.clock (st.pending.take k) ∧
        (tRun stt st k).pending = st.pending.drop k ∧
        (tRun stt st k).clock =
          st.clock + ((st.pending.take k).map AudioWindow.duration).sum := by
  intro k
  induction k with
  | zero => intro st; simp [tRun, appendSegments]
  | succ j ih =>
    intro st
    cases hp : st.pending with
    | nil =>
      have hstep : tStep stt st = st := by
        unfold tStep; rw [hp]
      obtain ⟨h1, h2, h3⟩ := ih (tStep stt st)
      rw [hstep, hp] at h1 h2 h3
      refine ⟨?_, ?_, ?_⟩
      · rw [show tRun stt st (j + 1) = tRun stt (tStep stt st) j from rfl,
          hstep, h1]
        simp [hp, appendSegments]
      · rw [show tRun stt st (j + 1) = tRun stt (tStep stt st) j from rfl,
          hstep, h2]
        simp [hp]
      · rw [show tRun stt st (j + 1) = tRun stt (tStep stt st) j from rfl,
          hstep, h3]
        simp [hp]
    | cons w rest =>
      have hstep : tStep stt st =
          ⟨st.clock + w.duration, rest,
            st.log ++ [⟨st.clock, st.clock + w.duration, windowText stt w⟩]⟩ := by
        unfold tStep; rw [hp]
      obtain ⟨h1, h2, h3⟩ := ih (tStep stt st)
      rw [hstep] at h1 h2 h3
      simp only at h1 h2 h3
      refine ⟨?_, ?_, ?_⟩
      · rw [show tRun stt st (j + 1) = tRun stt (tStep stt st) j from rfl,
          hstep, h1]
        simp only [hp, List.take_cons, appendSegments, List.append_assoc,
          List.singleton_append]
      · rw [show tRun stt st (j + 1) = tRun stt (tStep stt st) j from rfl,
          hstep, h2]
        simp [hp]
      · rw [show tRun stt st (j + 1) = tRun stt (tStep stt st) j from rfl,
          hstep, h3]
        rw [List.take_succ_cons, List.map_cons, List.sum_cons]
        ring

/-- C5: after k completed windows the durable transcript log is exactly the
segments of windows 1 through k, in order; a crash during window k+1
observes the log of the k completed windows, so each later run extends the
log by at most the one in-flight window and never rewrites or corrupts a
completed entry. -/
theorem c5_durable_log_exact :
    (∀ (stt : AudioWindow → Option String) (ws : List AudioWindow) (k : ℕ),
       (tRun stt (initTranscriber ws) k).log =
         appendSegments stt 0 (ws.take k)) ∧
    (∀ (stt : AudioWindow → Option String) (ws : List AudioWindow) (k : ℕ),
       ∃ tail, tail.length ≤ 1 ∧
         (tRun stt (initTranscriber ws) (k + 1)).log =
           (tRun stt (initTranscriber ws) k).log ++ tail) := by
  have hlog : ∀ (stt : AudioWindow → Option String) (ws : List AudioWindow)
      (k : ℕ), (tRun stt (initTranscriber ws) k).log =
        appendSegments stt 0 (ws.take k) := by
    intro stt ws k
    have h := (tRun_spec stt k (initTranscriber ws)).1
    simpa [initTranscriber] using h
  refine ⟨hlog, ?_⟩
  intro stt ws k
  rw [hlog, hlog, List.take_succ, appendSegments_append]
  refine ⟨appendSegments stt
    (0 + ((ws.take k).map AudioWindow.duration).sum) ws[k]?.toList, ?_, rfl⟩
  cases h : ws[k]? with
  | none => simp [appendSegments]
  | some w => simp [appendSegments]

/-! The capture path: sample source, bounded frame queue with drop-oldest
policy, and the session tape, modelled from sections 4.1 and 4.3 of the
design document. -/

/-- Modelled from the spec: a fixed-size audio frame with its monotonically
increasing sequence number. -/
structure AudioFrame where
  seq : ℕ
  samples : List ℤ
deriving DecidableEq

/-- Modelled from the spec: an event of the capture loop: the producer
emits a frame, or the consumer takes one from the queue. -/
inductive CaptureEvent where
  | produce (f : AudioFrame)
  | consume
deriving DecidableEq

/-- Modelled from the spec: the capture-path state: the bounded in-memory
queue, the FrameDropped events recorded so far (by sequence number), the
session tape written on the separate unbounded disk-backed path, and the
frames taken by the consumer. -/
structure CaptureState where
  queue : List AudioFrame
  dropped : List ℕ
  tape : List AudioFrame
  consumed : List AudioFrame
deriving DecidableEq

/-- Modelled from the spec: one capture-loop step with queue capacity C.
A produced frame is always appended to the session tape; if the queue is
full the oldest unconsumed frame is evicted and a FrameDropped event with
its sequence number is recorded, so the producer never blocks.  A consume
step takes the oldest queued frame, if any. -/
def captureStep (C : ℕ) (st : CaptureState) : CaptureEvent → CaptureState
  | CaptureEvent.produce f =>
      if st.queue.length < C then
        ⟨st.queue ++ [f], st.dropped, st.tape ++ [f], st.consumed⟩
      else
        match st.queue with
        | [] => ⟨[f], st.dropped, st.tape ++ [f], st.consumed⟩
        | old :: restQ =>
            ⟨restQ ++ [f], st.dropped ++ [old.seq], st.tape ++ [f],
              st.consumed⟩
  | CaptureEvent.consume =>
      match st.queue with
      | [] => st
      | x :: restQ => ⟨restQ, st.dropped, st.tape, st.consumed ++ [x]⟩

/-- Modelled from the spec: running the capture loop over a schedule of
events from the empty initial state. -/
def captureRun (C : ℕ) (es : List CaptureEvent) : CaptureState :=
  es.foldl (captureStep C) ⟨[], [], [], []⟩

/-- The frames emitted by the SampleSource in a schedule, in order. -/
def producedFrames (es : List CaptureEvent) : List AudioFrame :=
  es.filterMap fun e =>
    match e with
    | CaptureEvent.produce f => some f
    | CaptureEvent.consume => none

theorem captureGo_tape (C : ℕ) :
    ∀ (es : List CaptureEvent) (st : CaptureState),
      (es.foldl (captureStep C) st).tape = st.tape ++ producedFrames es := by
  intro es
  induction es with
  | nil => intro st; simp [producedFrames]
  | cons e rest ih =>
    intro st
    simp only [List.foldl_cons]
    rw [ih (captureStep C st e)]
    have htape : (captureStep C st e).tape =
        st.tape ++ producedFrames [e] := by
      cases e with
      | produce f =>
        simp only [captureStep, producedFrames, List.filterMap_cons]
        by_cases hlt : st.queue.length < C
        · rw [if_pos hlt]; simp [List.filterMap_nil]
        · rw [if_neg hlt]
          cases st.queue with
          | nil => simp [List.filterMap_nil]
          | cons old restQ => simp [List.filterMap_nil]
      | consume =>
        simp only [captureStep, producedFrames, List.filterMap_cons]
        cases st.queue with
        | nil => simp [List.filterMap_nil]
        | cons x restQ => simp [List.filterMap_nil]
    rw [htape]
    have hpf : producedFrames (e :: rest) =
        producedFrames [e] ++ producedFrames rest := by
      simp [producedFrames, List.filterMap_cons]
      cases e <;> simp
    rw [hpf, List.append_assoc]

theorem captureGo_queue_len (C : ℕ) (hC : 0 < C) :
    ∀ (es : List CaptureEvent) (st : CaptureState),
      st.queue.length ≤ C → (es.foldl (captureStep C) st).queue.length ≤ C := by
  intro es
  induction es with
  | nil => intro st h; simpa using h
  | cons e rest ih =>
    intro st h
    simp only [List.foldl_cons]
    refine ih (captureStep C st e) ?_
    cases e with
    | produce f =>
      simp only [captureStep]
      by_cases hlt : st.queue.length < C
      · rw [if_pos hlt]; simpa using hlt
      · rw [if_neg hlt]
        cases hq : st.queue with
        | nil => simpa using hC
        | cons old restQ =>
          simp only [List.length_append, List.length_cons, List.length_nil]
          have := h
          rw [hq] at this
          simp only [List.length_cons] at this
          omega
    | consume =>
      simp only [captureStep]
      cases hq : st.queue with
      | nil => simp [hq]
      | cons x restQ =>
        simp only []
        have := h
        rw [hq] at this
        simp only [List.length_cons] at this
        simpa using Nat.le_of_succ_le this

/-- C6: for every schedule of producer and consumer events the session tape
contains exactly the frames emitted by the SampleSource, in order (so the
tape frame count equals the number emitted even when the queue drops
frames); a produce onto a full queue evicts exactly the oldest unconsumed
frame and records a FrameDropped event with its sequence number, so the
queue never exceeds its capacity. -/
theorem c6_no_audio_loss_under_backpressure :
    (∀ (C : ℕ) (es : List CaptureEvent),
       (captureRun C es).tape = producedFrames es ∧
         (captureRun C es).tape.length = (producedFrames es).length) ∧
    (∀ (C : ℕ) (st : CaptureState) (f old : AudioFrame)
       (restQ : List AudioFrame),
       st.queue = old :: restQ → ¬ st.queue.length < C →
         captureStep C st (CaptureEvent.produce f) =
           ⟨restQ ++ [f], st.dropped ++ [old.seq], st.tape ++ [f],
             st.consumed⟩) ∧
    (∀ (C : ℕ) (es : List CaptureEvent), 0 < C →
       (captureRun C es).queue.length ≤ C) := by
  refine ⟨?_, ?_, ?_⟩
  · intro C es
    have h := captureGo_tape C es ⟨[], [], [], []⟩
    constructor
    · simpa [captureRun] using h
    · rw [show (captureRun C es).tape = producedFrames es by
        simpa [captureRun] using h]
  · intro C st f old restQ hq hfull
    rw [hq] at hfull
    simp only [captureStep, hq, if_neg hfull]
  · intro C es hC
    exact captureGo_queue_len C hC es ⟨[], [], [], []⟩ (by simp)

/-- A frame for the C6 witness. -/
def frameA : AudioFrame := ⟨0, []⟩

/-- A second frame for the C6 witness. -/
def frameB : AudioFrame := ⟨1, []⟩

/-- Witness for C6: with capacity one and two produced frames and no
consumption, the oldest frame is evicted with a FrameDropped event, yet the
tape holds both frames. -/
theorem c6_no_audio_loss_under_backpressure_witness :
    ((⟨[frameA], [], [frameA], []⟩ : CaptureState).queue =
        frameA :: [] ∧
      ¬ (⟨[frameA], [], [frameA], []⟩ : CaptureState).queue.length < 1 ∧
      (0 : ℕ) < 1) ∧
    captureStep 1 ⟨[frameA], [], [frameA], []⟩
        (CaptureEvent.produce frameB) =
      ⟨[] ++ [frameB], [] ++ [frameA.seq], [frameA] ++ [frameB], []⟩ ∧
    (captureRun 1
        [CaptureEvent.produce frameA, CaptureEvent.produce frameB]).tape =
      [frameA, frameB] ∧
    (captureRun 1
        [CaptureEvent.produce frameA,
          CaptureEvent.produce frameB]).queue.length ≤ 1 :=
  ⟨⟨rfl, by decide, by decide⟩,
    c6_no_audio_loss_under_backpressure.2.1 1 ⟨[frameA], [], [frameA], []⟩
      frameB frameA [] rfl (by decide),
    by decide,
    c6_no_audio_loss_under_backpressure.2.2 1
      [CaptureEvent.produce frameA, CaptureEvent.produce frameB] (by decide)⟩

/-! The session lifecycle state machine, modelled from sections 3 and 4.6 of
the design document (the backend state machine itself is not under src/;
the frontend dhwani page only polls it). -/

/-- Modelled from the spec: the session lifecycle states. -/
inductive SessionState where
  | Capturing
  | Stopped
  | Reconciling
  | Finalized
  | Failed
deriving DecidableEq, Fintype

/-- Modelled from the spec: the lifecycle events driving the session state
machine: capture stops, reconciliation begins, finalization succeeds, or an
unrecoverable error occurs. -/
inductive SessionEvent where
  | stopCapture
  | beginReconcile
  | finalizeOk
  | fail
deriving DecidableEq, Fintype

/-- Modelled from the spec: the one-directional session state machine of
section 4.6: Capturing to Stopped, Stopped to Reconciling, Reconciling to
Finalized, and Stopped or Reconciling to Failed on unrecoverable errors;
every other combination is rejected. -/
def sessionNext : SessionState → SessionEvent → Option SessionState
  | SessionState.Capturing, SessionEvent.stopCapture =>
      some SessionState.Stopped
  | SessionState.Stopped, SessionEvent.beginReconcile =>
      some SessionState.Reconciling
  | SessionState.Reconciling, SessionEvent.finalizeOk =>
      some SessionState.Finalized
  | SessionState.Stopped, SessionEvent.fail => some SessionState.Failed
  | SessionState.Reconciling, SessionEvent.fail => some SessionState.Failed
  | _, _ => none

/-- Modelled from the spec: the state reached after a sequence of accepted
lifecycle events (rejected events leave the state unchanged). -/
def sessionRun (s : SessionState) (es : List SessionEvent) : SessionState :=
  es.foldl (fun cur e => (sessionNext cur e).getD cur) s

/-- C9: every accepted transition of the session state machine is one of
Capturing to Stopped, Stopped to Reconciling, Reconciling to Finalized, or
Stopped or Reconciling to Failed; no transition targets Capturing, and
Finalized and Failed are terminal. -/
theorem c9_session_state_machine :
    (∀ (s t : SessionState) (e : SessionEvent), sessionNext s e = some t →
       (s = SessionState.Capturing ∧ t = SessionState.Stopped) ∨
         (s = SessionState.Stopped ∧ t = SessionState.Reconciling) ∨
         (s = SessionState.Reconciling ∧ t = SessionState.Finalized) ∨
         ((s = SessionState.Stopped ∨ s = SessionState.Reconciling) ∧
           t = SessionState.Failed)) ∧
    (∀ (s t : SessionState) (e : SessionEvent), sessionNext s e = some t →
       t ≠ SessionState.Capturing) ∧
    (∀ e, sessionNext SessionState.Finalized e = none) ∧
    (∀ e, sessionNext SessionState.Failed e = none) ∧
    (∀ (s : SessionState) (es : List SessionEvent),
       s ≠ SessionState.Capturing →
         sessionRun s es ≠ SessionState.Capturing) := by
  refine ⟨by decide, by decide, by decide, by decide, ?_⟩
  intro s es
  induction es generalizing s with
  | nil => intro h; exact h
  | cons e rest ih =>
    intro h
    simp only [sessionRun, List.foldl_cons]
    refine ih ((sessionNext s e).getD s) ?_
    cases hn : sessionNext s e with
    | none => simpa using h
    | some t =>
      simp only [Option.getD_some]
      revert hn
      revert t
      revert h
      revert e
      revert s
      decide

/-- Witness for C9: the accepted transition from Capturing on stopCapture
lands in Stopped, and a run of the full happy path from Capturing never
re-enters Capturing. -/
theorem c9_session_state_machine_witness :
    (sessionNext SessionState.Capturing SessionEvent.stopCapture =
        some SessionState.Stopped ∧
      SessionState.Stopped ≠ SessionState.Capturing) ∧
    ((SessionState.Capturing = SessionState.Capturing ∧
        SessionState.Stopped = SessionState.Stopped) ∨
      (SessionState.Capturing = SessionState.Stopped ∧
        SessionState.Stopped = SessionState.Reconciling) ∨
      (SessionState.Capturing = SessionState.Reconciling ∧
        SessionState.Stopped = SessionState.Finalized) ∨
      ((SessionState.Capturing = SessionState.Stopped ∨
          SessionState.Capturing = SessionState.Reconciling) ∧
        SessionState.Stopped = SessionState.Failed)) :=
  ⟨⟨by decide, by decide⟩,
    c9_session_state_machine.1 SessionState.Capturing SessionState.Stopped
      SessionEvent.stopCapture (by decide)⟩

/-! Validation of the OfflineSegmenter result and the bounded-retry policy,
modelled from sections 4.4 and 7 of the design document. -/

/-- Modelled from the spec: each interval ends where the next begins, so
the interval list is contiguous and, given positive lengths, ordered and
non-overlapping. -/
def Contiguous : List DiarizationInterval → Prop
  | [] => True
  | [_] => True
  | a :: b :: rest => a.end_seconds = b.start_seconds ∧ Contiguous (b :: rest)

instance instDecContiguous :
    (ds : List DiarizationInterval) → Decidable (Contiguous ds)
  | [] => isTrue trivial
  | [_] => isTrue trivial
  | _ :: b :: rest =>
      haveI := instDecContiguous (b :: rest)
      inferInstanceAs (Decidable (_ ∧ _))

/-- Modelled from the spec: the diarization-result invariant of section
4.4: every interval has positive length, consecutive intervals are
contiguous (each end equals the next start, hence the list is ordered and
non-overlapping), and the total span differs from the tape duration by at
most the tolerance. -/
def ValidDiarization (duration tol : ℤ)
    (ds : List DiarizationInterval) : Prop :=
  (∀ d ∈ ds, d.start_seconds < d.end_seconds) ∧
    Contiguous ds ∧
    |(ds.map fun d => d.end_seconds - d.start_seconds).sum - duration| ≤ tol

instance (duration tol : ℤ) (ds : List DiarizationInterval) :
    Decidable (ValidDiarization duration tol ds) := by
  unfold ValidDiarization; infer_instance

/-- Modelled from the spec: bounded retries of the OfflineSegmenter: the
attempts list holds each segmentation result produced up to the retry
bound, and the first result satisfying the invariant is accepted. -/
def firstValid (duration tol : ℤ) :
    List (List DiarizationInterval) → Option (List DiarizationInterval)
  | [] => none
  | ds :: rest =>
      if ValidDiarization duration tol ds then some ds
      else firstValid duration tol rest

/-- Modelled from the spec: the post-capture phase (sections 4.4 to 4.6):
from Stopped, the segmenter result is validated with bounded retries; if no
attempt satisfies the invariant the session moves to Failed with no
reconciled output, otherwise reconciliation runs on the accepted intervals
and the session is Finalized. -/
def offlinePhase (duration tol : ℤ)
    (attempts : List (List DiarizationInterval))
    (segs : List TranscriptionSegment) :
    SessionState × List ReconciledSegment :=
  match firstValid duration tol attempts with
  | none => (SessionState.Failed, [])
  | some ds => (SessionState.Finalized, reconcile segs ds)

theorem firstValid_none (duration tol : ℤ) :
    ∀ (attempts : List (List DiarizationInterval)),
      (∀ a ∈ attempts, ¬ ValidDiarization duration tol a) →
        firstValid duration tol attempts = none := by
  intro attempts
  induction attempts with
  | nil => intro _; rfl
  | cons a rest ih =>
    intro h
    unfold firstValid
    rw [if_neg (h a (List.mem_cons_self a rest))]
    exact ih fun b hb => h b (List.mem_cons_of_mem a hb)

theorem firstValid_some (duration tol : ℤ) :
    ∀ (attempts : List (List DiarizationInterval))
      (ds : List DiarizationInterval),
      firstValid duration tol attempts = some ds →
        ds ∈ attempts ∧ ValidDiarization duration tol ds := by
  intro attempts
  induction attempts with
  | nil => intro ds h; exact Option.noConfusion h
  | cons a rest ih =>
    intro ds h
    unfold firstValid at h
    by_cases hv : ValidDiarization duration tol a
    · rw [if_pos hv, Option.some_inj] at h
      exact ⟨h ▸ List.mem_cons_self a rest, h ▸ hv⟩
    · rw [if_neg hv] at h
      obtain ⟨hmem, hval⟩ := ih ds h
      exact ⟨List.mem_cons_of_mem a hmem, hval⟩

/-- C4: if every bounded segmentation attempt violates the coverage
invariant the session ends Failed, never Finalized, with no reconciled
output; and whenever the phase ends Finalized, some attempt satisfied the
invariant and the output is exactly the reconciliation of that validated
attempt, so reconciliation is only ever attempted on a validated result. -/
theorem c4_invalid_diarization_fails_session :
    (∀ (duration tol : ℤ) (attempts : List (List DiarizationInterval))
       (segs : List TranscriptionSegment),
       (∀ a ∈ attempts, ¬ ValidDiarization duration tol a) →
         offlinePhase duration tol attempts segs =
             (SessionState.Failed, []) ∧
           (offlinePhase duration tol attempts segs).1 ≠
             SessionState.Finalized) ∧
    (∀ (duration tol : ℤ) (attempts : List (List DiarizationInterval))
       (segs : List TranscriptionSegment),
       (offlinePhase duration tol attempts segs).1 =
           SessionState.Finalized →
         ∃ ds ∈ attempts, ValidDiarization duration tol ds ∧
           (offlinePhase duration tol attempts segs).2 =
             reconcile segs ds) := by
  constructor
  · intro duration tol attempts segs h
    have hn := firstValid_none duration tol attempts h
    constructor
    · unfold offlinePhase
      rw [hn]
    · unfold offlinePhase
      rw [hn]
      intro hc
      exact SessionState.noConfusion hc
  · intro duration tol attempts segs h
    cases hf : firstValid duration tol attempts with
    | none =>
      exfalso
      unfold offlinePhase at h
      rw [hf] at h
      exact SessionState.noConfusion h
    | some ds =>
      obtain ⟨hmem, hval⟩ := firstValid_some duration tol attempts ds hf
      refine ⟨ds, hmem, hval, ?_⟩
      unfold offlinePhase
      rw [hf]

/-- A diarization attempt covering only ten seconds of a thirty-second
tape, for the C4 witness. -/
def shortAttempt : List DiarizationInterval := [⟨0, 10, "S0"⟩]

/-- Witness for C4: with a thirty-second duration and zero tolerance, the
ten-second attempt violates the invariant on every (single) retry and the
phase ends Failed, never Finalized. -/
theorem c4_invalid_diarization_fails_session_witness :
    (∀ a ∈ [shortAttempt], ¬ ValidDiarization 30 0 a) ∧
      offlinePhase 30 0 [shortAttempt] [] = (SessionState.Failed, []) ∧
        (offlinePhase 30 0 [shortAttempt] []).1 ≠ SessionState.Finalized :=
  ⟨by decide,
    c4_invalid_diarization_fails_session.1 30 0 [shortAttempt] [] (by decide)⟩

/-! The transcript download feature, embedded from the frontend transcript
page source (frontend/app/transcript/[id]/page.tsx). -/

/-- Embedded from the source: a transcript segment as the page receives it
from the API (interface TranscriptSegment). -/
structure TranscriptSegment where
  sequence : ℕ
  speaker : String
  text : String
  start_time : ℤ
  end_time : ℤ
  confidence : ℤ
deriving DecidableEq

/-- Embedded from the source: the transcript payload (interface
TranscriptData). -/
structure TranscriptData where
  recording_id : ℕ
  full_text : String
  language : String
  confidence_score : ℤ
  word_count : ℕ
  segments : List TranscriptSegment
deriving DecidableEq

/-- Embedded from the source: the recording metadata (interface Recording);
only the fields the download path reads are modelled. -/
structure Recording where
  id : ℕ
  title : String
  status : String
  created_at : String
deriving DecidableEq

/-- Embedded from the source: padStart on the decimal string, filling on
the left up to the requested length. -/
def padStart (s : String) (n : ℕ) (c : Char) : String :=
  String.mk (List.replicate (n - s.length) c) ++ s

/-- Embedded from the source: formatTime of the transcript page.  On
integral second counts Math.floor of the division by sixty is the floored
division and Math.floor of the js remainder by sixty is the truncating
remainder itself. -/
def formatTime (seconds : ℤ) : String :=
  let mins := Int.fdiv seconds 60
  let secs := Int.tmod seconds 60
  toString mins ++ ":" ++ padStart (toString secs) 2 '0'

/-- Embedded from the source: the text block downloadTranscript builds for
one segment. -/
def segBlock (seg : TranscriptSegment) : String :=
  "[" ++ formatTime seg.start_time ++ " - " ++ formatTime seg.end_time ++
    "] " ++ seg.speaker ++ ": " ++ seg.text

/-- Embedded from the source: the separator of the join call, one blank
line between blocks. -/
def blockSep : String := "\n\n"

/-- Embedded from the source: the file content assembled by
downloadTranscript, the per-segment blocks in segment order joined by the
separator. -/
def downloadContent (t : TranscriptData) : String :=
  String.intercalate blockSep (t.segments.map segBlock)

/-- Embedded from the source: downloadTranscript returns early when either
the transcript or the recording is not loaded, and otherwise produces the
joined content (written to the downloaded file). -/
def downloadTranscript (transcript : Option TranscriptData)
    (recording : Option Recording) : Option String :=
  match transcript, recording with
  | some t, some _ => some (downloadContent t)
  | _, _ => none

/-- First segment of the concrete download example. -/
def exSegHello : TranscriptSegment := ⟨1, "S0", "hello", 0, 65, 0⟩

/-- Second segment of the concrete download example. -/
def exSegWorld : TranscriptSegment := ⟨2, "S1", "world", 65, 125, 0⟩

/-- The concrete transcript of the download example. -/
def exTranscript : TranscriptData :=
  ⟨7, "hello world", "en", 0, 2, [exSegHello, exSegWorld]⟩

/-- The concrete recording of the download example. -/
def exRecording : Recording := ⟨7, "Demo", "completed", "2025-01-01"⟩

/-- C10: for every loaded transcript the exported file content is the join
of exactly one block per segment, in segment order, each block carrying the
formatted start and end times, the speaker label and the unchanged text; no
segment is dropped, duplicated or reordered, as the concrete two-segment
example shows end to end. -/
theorem c10_download_one_block_per_segment :
    (∀ (t : TranscriptData) (rec : Recording),
       downloadTranscript (some t) (some rec) =
         some (String.intercalate blockSep (t.segments.map segBlock))) ∧
    (∀ t : TranscriptData,
       (t.segments.map segBlock).length = t.segments.length) ∧
    (∀ (t : TranscriptData) (i : ℕ),
       (t.segments.map segBlock).get? i = (t.segments.get? i).map segBlock) ∧
    (∀ seg : TranscriptSegment,
       segBlock seg =
         "[" ++ formatTime seg.start_time ++ " - " ++
           formatTime seg.end_time ++ "] " ++ seg.speaker ++ ": " ++
             seg.text) ∧
    downloadTranscript (some exTranscript) (some exRecording) =
      some ("[0:00 - 1:05] S0: hello\n\n[1:05 - 2:05] S1: world") := by
  refine ⟨fun t rec => rfl, fun t => by simp, ?_, fun seg => rfl, by decide⟩
  intro t i
  simp [List.getElem?_map]
